import Mathlib

/-!
Verification of the score-function module of PGL `apps/graph4kg`
(`models/score_functions.py`) against its natural-language specification.

The numeric kernels are shallowly embedded over the reals: a paddle tensor of
shape `[B, n, d]` is a curried function `Fin B → Fin n → Fin d → ℝ`, elementwise
tensor arithmetic is pointwise real arithmetic, `paddle.norm(p=2, axis=-1)` is
the square root of the sum of squares over the last index, and fallible code
(python `raise`) is `Except`.  A separate shape-level embedding (`List ℕ`
shapes with numpy/paddle broadcasting) models the rank/shape behaviour of the
same kernels for the shape-contract claims.
-/

open scoped BigOperators

noncomputable section

/-- Real vector of width `m`, the embedding of the last tensor axis. -/
abbrev Vec (m : ℕ) := Fin m → ℝ

/-- Elementwise product summed over the last axis: the embedding of
`(a * b).sum(axis=-1)` and of the inner product inside `paddle.matmul`
for a single row/column pair. -/
def dot {m : ℕ} (x y : Vec m) : ℝ := ∑ k, x k * y k

/-- Embedding of `paddle.norm(v, p=2, axis=-1)` for one slice along the
last axis. -/
def l2normLast {m : ℕ} (v : Vec m) : ℝ := Real.sqrt (∑ k, v k ^ 2)

theorem dot_comm {m : ℕ} (x y : Vec m) : dot x y = dot y x := by
  unfold dot; exact Finset.sum_congr rfl fun k _ => mul_comm _ _

theorem dot_sub_left {m : ℕ} (x y z : Vec m) :
    dot (x - y) z = dot x z - dot y z := by
  unfold dot
  rw [← Finset.sum_sub_distrib]
  exact Finset.sum_congr rfl fun k _ => by
    simp [Pi.sub_apply, sub_mul]

theorem dot_smul_left {m : ℕ} (c : ℝ) (x y : Vec m) :
    dot (c • x) y = c * dot x y := by
  unfold dot
  rw [Finset.mul_sum]
  exact Finset.sum_congr rfl fun k _ => by
    simp [Pi.smul_apply, smul_eq_mul, mul_assoc]

theorem dot_sum_left {m : ℕ} {ι : Type} (s : Finset ι) (f : ι → Vec m) (y : Vec m) :
    dot (∑ j ∈ s, f j) y = ∑ j ∈ s, dot (f j) y := by
  unfold dot
  rw [Finset.sum_comm]
  exact Finset.sum_congr rfl fun k _ => by
    rw [Finset.sum_apply, Finset.sum_mul]

theorem dot_self_nonneg {m : ℕ} (x : Vec m) : 0 ≤ dot x x :=
  Finset.sum_nonneg fun k _ => mul_self_nonneg _

theorem dot_self_eq_sum_sq {m : ℕ} (x : Vec m) : dot x x = ∑ k, x k ^ 2 :=
  Finset.sum_congr rfl fun k _ => (sq (x k)).symm

theorem dot_self_eq_zero_iff {m : ℕ} (x : Vec m) : dot x x = 0 ↔ x = 0 := by
  rw [dot_self_eq_sum_sq]
  constructor
  · intro h
    funext k
    have h2 := (Finset.sum_eq_zero_iff_of_nonneg
      (fun k _ => sq_nonneg (x k))).mp h k (Finset.mem_univ k)
    have := sq_eq_zero_iff.mp h2
    simpa using this
  · intro h; subst h; simp

theorem dot_self_pos_of_ne_zero {m : ℕ} {x : Vec m} (h : x ≠ 0) : 0 < dot x x := by
  rcases lt_or_eq_of_le (dot_self_nonneg x) with hlt | heq
  · exact hlt
  · exact absurd ((dot_self_eq_zero_iff x).mp heq.symm) h

theorem l2normLast_sq {m : ℕ} (v : Vec m) : l2normLast v ^ 2 = dot v v := by
  rw [l2normLast, Real.sq_sqrt (Finset.sum_nonneg fun k _ => sq_nonneg (v k)),
    dot_self_eq_sum_sq]

/-! ## TransEScore

Embedding of `TransEScore` (`score_functions.py` lines 42-70).  `cdist` is the
pairwise Euclidean distance of lines 62-70: squared norms of both operands,
`-2 * paddle.matmul(a, b.transpose([0, 2, 1]))`, the two broadcasted
additions, a clip to the `1e-30` floor, and a square root. -/

/-- Embedding of `TransEScore.cdist` for `a : [B, na, d]`, `b : [B, nb, d]`;
entry `(p, i, j)` is the clipped Euclidean distance between row `i` of `a`
and row `j` of `b` in batch `p`. -/
def cdist {B na nb d : ℕ} (a : Fin B → Fin na → Vec d) (b : Fin B → Fin nb → Vec d) :
    Fin B → Fin na → Fin nb → ℝ :=
  fun p i j =>
    Real.sqrt (max ((-2) * dot (a p i) (b p j) + l2normLast (b p j) ^ 2
      + l2normLast (a p i) ^ 2) 1e-30)

/-- Embedding of `TransEScore.__call__`: `head = head + rel`,
`gamma - cdist(head, tail)`. -/
def transE_call {B na nb d : ℕ} (gamma : ℝ) (head rel : Fin B → Fin na → Vec d)
    (tail : Fin B → Fin nb → Vec d) : Fin B → Fin na → Fin nb → ℝ :=
  fun p i j => gamma - cdist (fun p i => head p i + rel p i) tail p i j

/-- Embedding of `TransEScore.inverse`: `tail = tail - rel`,
`gamma - cdist(tail, head)`. -/
def transE_inverse {B nh nt d : ℕ} (gamma : ℝ) (head : Fin B → Fin nh → Vec d)
    (rel tail : Fin B → Fin nt → Vec d) : Fin B → Fin nt → Fin nh → ℝ :=
  fun p i j => gamma - cdist (fun p i => tail p i - rel p i) head p i j

/-! ## RotatEScore

Embedding of `RotatEScore` (`score_functions.py` lines 86-128) for rank-2
inputs `[B, 2k]`.  `paddle.chunk(x, 2, axis=-1)` splits the last axis into the
first-half (real) and second-half (imaginary) components. -/

/-- First half of `paddle.chunk(v, 2, axis=-1)`. -/
def chunkLo {k : ℕ} (v : Vec (k + k)) : Vec k := fun i => v (Fin.castAdd k i)

/-- Second half of `paddle.chunk(v, 2, axis=-1)`. -/
def chunkHi {k : ℕ} (v : Vec (k + k)) : Vec k := fun i => v (Fin.natAdd k i)

/-- Embedding of `phase_rel = rel / (self.emb_init / np.pi)` for one entry. -/
def rotatE_phase (embInit r : ℝ) : ℝ := r / (embInit / Real.pi)

/-- Embedding of line 104 of the source, the predicted real part before the
tail residual is subtracted: `re_rel * re_head - im_rel * im_tail`.
Note that the source multiplies `im_rel` with `im_tail`, not `im_head`. -/
def rotatE_re_pred {k : ℕ} (embInit : ℝ) (head tail : Vec (k + k)) (rel : Vec k) :
    Vec k :=
  fun i => Real.cos (rotatE_phase embInit (rel i)) * chunkLo head i
    - Real.sin (rotatE_phase embInit (rel i)) * chunkHi tail i

/-- Embedding of line 105 of the source, the predicted imaginary part
before the tail residual: `re_rel * im_head + im_rel * re_head`. -/
def rotatE_im_pred {k : ℕ} (embInit : ℝ) (head : Vec (k + k)) (rel : Vec k) :
    Vec k :=
  fun i => Real.cos (rotatE_phase embInit (rel i)) * chunkHi head i
    + Real.sin (rotatE_phase embInit (rel i)) * chunkLo head i

/-- Modelled from the spec (section 4.3), for comparison with the source:
`predictedReal = rotReal * headReal - rotImag * headImag`.  This is the
formula the specification states for the forward rotation; it differs from
`rotatE_re_pred` (the source) in the second factor of the second product. -/
def rotatE_re_pred_spec {k : ℕ} (embInit : ℝ) (head : Vec (k + k)) (rel : Vec k) :
    Vec k :=
  fun i => Real.cos (rotatE_phase embInit (rel i)) * chunkLo head i
    - Real.sin (rotatE_phase embInit (rel i)) * chunkHi head i

/-- Embedding of `RotatEScore.__call__` (lines 98-112): predicted parts,
residual against the tail halves, per-element magnitude with the `1e-12`
epsilon, sum over the halved axis, and the `gamma -` step. -/
def rotatE_call {B k : ℕ} (gamma embInit : ℝ) (head tail : Fin B → Vec (k + k))
    (rel : Fin B → Vec k) : Fin B → ℝ :=
  fun b => gamma - ∑ i,
    Real.sqrt ((rotatE_re_pred embInit (head b) (tail b) (rel b) i - chunkLo (tail b) i)
        * (rotatE_re_pred embInit (head b) (tail b) (rel b) i - chunkLo (tail b) i)
      + (rotatE_im_pred embInit (head b) (rel b) i - chunkHi (tail b) i)
        * (rotatE_im_pred embInit (head b) (rel b) i - chunkHi (tail b) i)
      + 1e-12)

/-- Embedding of `RotatEScore.inverse` (lines 114-128): the conjugate
rotation applied to the tail, residual against the head halves. -/
def rotatE_inverse {B k : ℕ} (gamma embInit : ℝ) (head tail : Fin B → Vec (k + k))
    (rel : Fin B → Vec k) : Fin B → ℝ :=
  fun b => gamma - ∑ i,
    Real.sqrt ((Real.cos (rotatE_phase embInit (rel b i)) * chunkLo (tail b) i
        + Real.sin (rotatE_phase embInit (rel b i)) * chunkHi (tail b) i
        - chunkLo (head b) i)
        * (Real.cos (rotatE_phase embInit (rel b i)) * chunkLo (tail b) i
        + Real.sin (rotatE_phase embInit (rel b i)) * chunkHi (tail b) i
        - chunkLo (head b) i)
      + (Real.cos (rotatE_phase embInit (rel b i)) * chunkHi (tail b) i
        - Real.sin (rotatE_phase embInit (rel b i)) * chunkLo (tail b) i
        - chunkHi (head b) i)
        * (Real.cos (rotatE_phase embInit (rel b i)) * chunkHi (tail b) i
        - Real.sin (rotatE_phase embInit (rel b i)) * chunkLo (tail b) i
        - chunkHi (head b) i)
      + 1e-12)

/-! ## Concrete inputs and evaluation helpers for TransE and RotatE -/

theorem rotatE_phase_pi (x : ℝ) : rotatE_phase Real.pi x = x := by
  rw [rotatE_phase, div_self Real.pi_ne_zero, div_one]

/-- Head embedding of the RotatE exhibit: both halves zero. -/
def c1head : Vec (1 + 1) := fun _ => 0

/-- Tail embedding of the RotatE exhibit: real half 0, imaginary half 1. -/
def c1tail : Vec (1 + 1) := fun j => if (j : ℕ) = 1 then 1 else 0

/-- Relation embedding of the RotatE exhibit: phase pi/2 under emb_init = pi. -/
def c1rel : Vec 1 := fun _ => Real.pi / 2

theorem c1_chunkHi_tail : chunkHi c1tail 0 = 1 := by
  simp [chunkHi, c1tail, Fin.natAdd]

theorem c1_chunkLo_head : chunkLo c1head 0 = 0 := by
  simp [chunkLo, c1head]

theorem c1_chunkHi_head : chunkHi c1head 0 = 0 := by
  simp [chunkHi, c1head]

/-- General helper: when the translated row equals the reference row exactly,
`cdist` evaluates to the square root of the clip floor, `1e-15`. -/
theorem cdist_eq_floor_of_eq {B na nb d : ℕ} (a : Fin B → Fin na → Vec d)
    (b : Fin B → Fin nb → Vec d) (p : Fin B) (i : Fin na) (j : Fin nb)
    (h : a p i = b p j) : cdist a b p i j = 1e-15 := by
  have h30 : (1e-30 : ℝ) = 1e-15 ^ 2 := by norm_num
  rw [cdist, h]
  have hz : (-2 : ℝ) * dot (b p j) (b p j) + l2normLast (b p j) ^ 2
      + l2normLast (b p j) ^ 2 = 0 := by
    rw [l2normLast_sq]; ring
  rw [hz, max_eq_right (by norm_num : (0:ℝ) ≤ 1e-30), h30,
    Real.sqrt_sq (by norm_num : (0:ℝ) ≤ 1e-15)]

/-- General helper: evaluate `cdist` on width-1 vectors with constant values. -/
theorem cdist_const_one {B na nb : ℕ} (a : Fin B → Fin na → Vec 1)
    (b : Fin B → Fin nb → Vec 1) (p : Fin B) (i : Fin na) (j : Fin nb)
    (x y : ℝ) (hx : a p i 0 = x) (hy : b p j 0 = y)
    (hfloor : (1e-30 : ℝ) ≤ (x - y) ^ 2) :
    cdist a b p i j = |x - y| := by
  have hd : dot (a p i) (b p j) = x * y := by
    rw [dot, Fin.sum_univ_one, hx, hy]
  have hb : l2normLast (b p j) ^ 2 = y * y := by
    rw [l2normLast_sq, dot, Fin.sum_univ_one, hy]
  have ha : l2normLast (a p i) ^ 2 = x * x := by
    rw [l2normLast_sq, dot, Fin.sum_univ_one, hx]
  have hval : (-2 : ℝ) * dot (a p i) (b p j) + l2normLast (b p j) ^ 2
      + l2normLast (a p i) ^ 2 = (x - y) ^ 2 := by
    rw [hd, hb, ha]; ring
  rw [cdist, hval, max_eq_left (le_trans hfloor (le_refl _)), Real.sqrt_sq_eq_abs]

/-- Head of the TransE asymmetry exhibit: the constant vector 3. -/
def c4h : Fin 1 → Fin 1 → Vec 1 := fun _ _ _ => 3

/-- Relation of the TransE asymmetry exhibit: the constant vector 1. -/
def c4r : Fin 1 → Fin 1 → Vec 1 := fun _ _ _ => 1

/-- Tail of the TransE asymmetry exhibit: the zero vector. -/
def c4t : Fin 1 → Fin 1 → Vec 1 := fun _ _ _ => 0

/-- Head of the TransE exact-translation scenario: `[1, 0]`. -/
def c5h : Fin 1 → Fin 1 → Vec 2 := fun _ _ kk => if (kk : ℕ) = 0 then 1 else 0

/-- Relation of the TransE exact-translation scenario: `[1, 0]`. -/
def c5r : Fin 1 → Fin 1 → Vec 2 := fun _ _ kk => if (kk : ℕ) = 0 then 1 else 0

/-- Tail of the TransE exact-translation scenario: `[2, 0]`. -/
def c5t : Fin 1 → Fin 1 → Vec 2 := fun _ _ kk => if (kk : ℕ) = 0 then 2 else 0

/-- General helper: the forward TransE score at a pair whose translated head
equals the tail is exactly `gamma - 1e-15`, the clip floor surviving the
square root. -/
theorem transE_call_of_translated_eq {B na nb d : ℕ} (gamma : ℝ)
    (head rel : Fin B → Fin na → Vec d) (tail : Fin B → Fin nb → Vec d)
    (p : Fin B) (i : Fin na) (j : Fin nb)
    (h : ∀ kk, head p i kk + rel p i kk = tail p j kk) :
    transE_call gamma head rel tail p i j = gamma - 1e-15 := by
  rw [transE_call, cdist_eq_floor_of_eq _ _ p i j (funext h)]

/-! ## Claim theorems for TransE and RotatE (C1, C4, C5) -/

/-- C1: the spec says the forward RotatE score rotates the head,
`predictedReal = rotReal * headReal - rotImag * headImag`.  The source
(line 104) instead computes `re_rel * re_head - im_rel * im_tail`, mixing
the tail's imaginary half into the predicted real part.  At emb_init = pi,
rel = pi/2 (phase pi/2: rotReal = 0, rotImag = 1), head = (0, 0),
tail = (0, 1), the code's predicted real part is -1 while the
specification's formula gives 0. -/
theorem rotatE_forward_pred_uses_im_tail :
    rotatE_re_pred Real.pi c1head c1tail c1rel 0 = -1 ∧
    rotatE_re_pred_spec Real.pi c1head c1rel 0 = 0 := by
  constructor
  · rw [rotatE_re_pred]
    rw [show c1rel 0 = Real.pi / 2 from rfl, rotatE_phase_pi,
      c1_chunkLo_head, c1_chunkHi_tail, Real.sin_pi_div_two]
    ring
  · rw [rotatE_re_pred_spec]
    rw [show c1rel 0 = Real.pi / 2 from rfl, rotatE_phase_pi,
      c1_chunkLo_head, c1_chunkHi_head]
    ring

/-- C4: `TransEScore.inverse` computes `reverseTranslated = tail - rel` and
returns `gamma - cdist(reverseTranslated, head)`; and it is not the same
function as the forward score with head and tail swapped: at head = [3],
rel = [1], tail = [0] and gamma = 0 the inverse score is -4 while the
swapped forward score is -2. -/
theorem transE_inverse_subtracts_rel_from_tail :
    (∀ (B nh nt d : ℕ) (gamma : ℝ) (head : Fin B → Fin nh → Vec d)
      (rel tail : Fin B → Fin nt → Vec d) (p : Fin B) (i : Fin nt) (j : Fin nh),
      transE_inverse gamma head rel tail p i j
        = gamma - cdist (fun p i => tail p i - rel p i) head p i j) ∧
    transE_inverse 0 c4h c4r c4t 0 0 0 ≠ transE_call 0 c4t c4r c4h 0 0 0 := by
  refine ⟨fun B nh nt d gamma head rel tail p i j => rfl, ?_⟩
  have hinv : transE_inverse 0 c4h c4r c4t 0 0 0 = -4 := by
    rw [transE_inverse,
      cdist_const_one _ _ 0 0 0 (-1) 3 (by norm_num [c4t, c4r]) (by norm_num [c4h])
        (by norm_num)]
    norm_num
  have hfwd : transE_call 0 c4t c4r c4h 0 0 0 = -2 := by
    rw [transE_call,
      cdist_const_one _ _ 0 0 0 1 3 (by norm_num [c4t, c4r]) (by norm_num [c4h])
        (by norm_num)]
    norm_num
  rw [hinv, hfwd]; norm_num

/-- C5 counterexample: in the exact-arithmetic semantics of the kernel, the
end-to-end scenario gamma = 12, head = [1,0], rel = [1,0], tail = [2,0]
does not return exactly 12: the pre-sqrt clip to 1e-30 makes the distance
1e-15, so the score is 12 - 1e-15. -/
theorem transE_exact_translation_score_ne_gamma :
    transE_call 12 c5h c5r c5t 0 0 0 ≠ 12 := by
  rw [transE_call_of_translated_eq 12 c5h c5r c5t 0 0 0
    (fun kk => by fin_cases kk <;> norm_num [c5h, c5r, c5t])]
  norm_num

/-- C5 amended: whenever the translated head equals the tail exactly
(elementwise), the TransE forward score equals `gamma - 1e-15` — the square
root of the 1e-30 clip floor — rather than gamma exactly. -/
theorem transE_exact_translation_score :
    ∀ (B na nb d : ℕ) (gamma : ℝ) (head rel : Fin B → Fin na → Vec d)
      (tail : Fin B → Fin nb → Vec d) (p : Fin B) (i : Fin na) (j : Fin nb),
      (∀ kk, head p i kk + rel p i kk = tail p j kk) →
      transE_call gamma head rel tail p i j = gamma - 1e-15 :=
  fun _ _ _ _ gamma head rel tail p i j h =>
    transE_call_of_translated_eq gamma head rel tail p i j h

/-- C5 witness: the 12.0 scenario instantiates the amended claim. -/
theorem transE_exact_translation_score_witness :
    (∀ kk, c5h 0 0 kk + c5r 0 0 kk = c5t 0 0 kk) ∧
    transE_call 12 c5h c5r c5t 0 0 0 = 12 - 1e-15 := by
  have h : ∀ kk, c5h 0 0 kk + c5r 0 0 kk = c5t 0 0 kk := by
    intro kk; fin_cases kk <;> norm_num [c5h, c5r, c5t]
  exact ⟨h, transE_exact_translation_score 1 1 1 2 12 c5h c5r c5t 0 0 0 h⟩

/-! ## OTEScore: the Gram-Schmidt loop of `orth_embedding` (lines 225-253)

The loop is embedded per block (every paddle operation in `orth_embedding`
acts batchwise on axis 0, blocks never interact).  The loop state mirrors
the python local variables: the list `u` of finalized rows, the list of
their squared norms (the python preallocates `uu` and reads the most
recently written entry `uu[i-1]`, which is the last element appended here),
and `u_d`, the remaining partially-reduced rows.  Rows of the block are
accessed through a total function `ℕ → Vec m` (out-of-range rows, never
read by the loop, are 0). -/

/-- Loop state of `orth_embedding`: finalized rows `u`, their squared norms
`uu`, remaining rows `u_d`. -/
structure GSState (m : ℕ) where
  u : List (Vec m)
  uu : List ℝ
  ud : List (Vec m)

/-- Total row accessor for a square block. -/
def erowOf {n m : ℕ} (block : Fin n → Vec m) : ℕ → Vec m :=
  fun i => if h : i < n then block ⟨i, h⟩ else 0

/-- State before the loop: `u = [embeddings[:, 0]]`,
`uu[0] = (u[0] * u[0]).sum(-1)`, `u_d = embeddings[:, 1:]`. -/
def gsInit {m : ℕ} (e : ℕ → Vec m) (n : ℕ) : GSState m :=
  ⟨[e 0], [dot (e 0) (e 0)], (List.range (n - 1)).map fun j => e (1 + j)⟩

/-- One iteration of the loop (lines 238-246): subtract from every
remaining row its projection onto the last finalized row `u[-1]`, where the
projection coefficient is `(embeddings[:, i:] * u[i-1]).sum(-1) / uu[i-1]`
(the numerator uses the ORIGINAL rows `i`, `i+1`, ...); take the first
remaining row as `u_i`; drop it from `u_d` when more rows remain; append
`u_i` and its squared norm. -/
def gsStep {m : ℕ} (e : ℕ → Vec m) (i : ℕ) (s : GSState m) : GSState m :=
  let prev := s.u.getLastD 0
  let puu := s.uu.getLastD 0
  let ud2 := (List.range s.ud.length).map fun j =>
    fun kk => s.ud.getD j 0 kk - prev kk * (dot (e (i + j)) prev / puu)
  let ui := ud2.headD 0
  ⟨s.u ++ [ui], s.uu ++ [dot ui ui], if 1 < ud2.length then ud2.tail else ud2⟩

/-- State after the first `t` iterations (`i = 1, ..., t`). -/
def gsStateAt {m : ℕ} (e : ℕ → Vec m) (n t : ℕ) : GSState m :=
  (List.range' 1 t).foldl (fun s i => gsStep e i s) (gsInit e n)

/-- Final loop state: iterations `i = 1, ..., num_elem - 1`. -/
def gsRun {m : ℕ} (e : ℕ → Vec m) (n : ℕ) : GSState m := gsStateAt e n (n - 1)

/-- The denominator the code divides by at iteration `i`: `uu[i-1]`, the raw
squared norm of the previous finalized row.  No epsilon is added: the `eps`
parameter of `orth_embedding` (default 1e-18) is never used in the body. -/
def gsDenom {m : ℕ} (e : ℕ → Vec m) (n i : ℕ) : ℝ :=
  (gsStateAt e n (i - 1)).uu.getLastD 0

/-- Row normalization after the loop: `u = u / u.norm(axis=-1, keepdim=True)`. -/
def gsNormalize {m : ℕ} (v : Vec m) : Vec m := fun kk => v kk / l2normLast v

/-- Embedding of `orth_embedding` for `use_scale = False`: run the loop on
the square block, stack the rows, normalize each row. -/
def orth_embedding_plain {n : ℕ} (block : Fin n → Vec n) : Fin n → Vec n :=
  fun i => gsNormalize ((gsRun (erowOf block) n).u.getD i 0)

/-- Square part `embeddings[:, :, :num_elem]` of a scaled block. -/
def squarePart {n : ℕ} (block : Fin n → Vec (n + 1)) : Fin n → Vec n :=
  fun i j => block i (Fin.castSucc j)

/-- Scale column `embeddings[:, :, -1]` of a scaled block. -/
def scaleCol {n : ℕ} (block : Fin n → Vec (n + 1)) : Fin n → ℝ :=
  fun i => block i (Fin.last n)

/-- Embedding of `orth_embedding` for `use_scale = True`: split off the
scale column, orthogonalize the square part, and re-concatenate the scale
column unchanged. -/
def orth_embedding_scaled {n : ℕ} (block : Fin n → Vec (n + 1)) :
    Fin n → Vec (n + 1) :=
  fun i col => Fin.lastCases (scaleCol block i)
    (fun j => orth_embedding_plain (squarePart block) i j) col

/-- Batched `orth_embedding` (`use_scale = False`): every paddle op in the
loop is elementwise over the block axis, so the batch maps blockwise. -/
def orth_embedding_plain_batched {nb n : ℕ} (batch : Fin nb → Fin n → Vec n) :
    Fin nb → Fin n → Vec n :=
  fun b => orth_embedding_plain (batch b)

/-- Batched `orth_embedding` (`use_scale = True`). -/
def orth_embedding_scaled_batched {nb n : ℕ}
    (batch : Fin nb → Fin n → Vec (n + 1)) : Fin nb → Fin n → Vec (n + 1) :=
  fun b => orth_embedding_scaled (batch b)

/-! ## Classical Gram-Schmidt closed form of the loop

The loop computes, in its incremental `u_d` form, the classical Gram-Schmidt
vectors with projection coefficients taken against the ORIGINAL rows:
`g i = e i - sum over j < i of (dot (e i) (g j) / dot (g j) (g j)) smul g j`.
The loop-invariant proof below establishes the correspondence, and
orthogonality is then proved for the closed form. -/

/-- Closed-form Gram-Schmidt vector produced by the loop for row `i`. -/
def gsClassical {m : ℕ} (e : ℕ → Vec m) (i : ℕ) : Vec m :=
  e i - ∑ j ∈ (Finset.range i).attach,
    (dot (e i) (gsClassical e j.1) / dot (gsClassical e j.1) (gsClassical e j.1))
      • gsClassical e j.1
termination_by i
decreasing_by exact Finset.mem_range.mp j.2

theorem gsClassical_def {m : ℕ} (e : ℕ → Vec m) (i : ℕ) :
    gsClassical e i = e i - ∑ j ∈ Finset.range i,
      (dot (e i) (gsClassical e j) / dot (gsClassical e j) (gsClassical e j))
        • gsClassical e j := by
  rw [gsClassical]
  congr 1
  exact Finset.sum_attach (Finset.range i) fun j =>
    (dot (e i) (gsClassical e j) / dot (gsClassical e j) (gsClassical e j))
      • gsClassical e j

theorem gsClassical_zero {m : ℕ} (e : ℕ → Vec m) : gsClassical e 0 = e 0 := by
  rw [gsClassical_def, Finset.range_zero, Finset.sum_empty, sub_zero]

/-- Row `r` of `u_d` as reduced against the first `t` finalized rows. -/
def gsResidual {m : ℕ} (e : ℕ → Vec m) (t r : ℕ) : Vec m :=
  e r - ∑ l ∈ Finset.range t,
    (dot (e r) (gsClassical e l) / dot (gsClassical e l) (gsClassical e l))
      • gsClassical e l

theorem gsResidual_zero {m : ℕ} (e : ℕ → Vec m) (r : ℕ) :
    gsResidual e 0 r = e r := by
  rw [gsResidual, Finset.range_zero, Finset.sum_empty, sub_zero]

theorem gsClassical_eq_residual {m : ℕ} (e : ℕ → Vec m) (i : ℕ) :
    gsClassical e i = gsResidual e i i :=
  gsClassical_def e i

theorem gsResidual_succ {m : ℕ} (e : ℕ → Vec m) (t r : ℕ) :
    gsResidual e (t + 1) r = fun kk => gsResidual e t r kk
      - gsClassical e t kk
        * (dot (e r) (gsClassical e t) / dot (gsClassical e t) (gsClassical e t)) := by
  funext kk
  simp only [gsResidual, Finset.sum_range_succ, Pi.sub_apply, Pi.add_apply,
    Finset.sum_apply, Pi.smul_apply, smul_eq_mul]
  ring

theorem gsClassical_mem_span {m : ℕ} (e : ℕ → Vec m) (i : ℕ) :
    gsClassical e i ∈ Submodule.span ℝ (e '' Set.Iic i) := by
  induction i using Nat.strong_induction_on with
  | _ i ih =>
    rw [gsClassical_def]
    apply sub_mem
    · exact Submodule.subset_span ⟨i, Set.mem_Iic.mpr le_rfl, rfl⟩
    · apply Submodule.sum_mem
      intro j hj
      apply Submodule.smul_mem
      have hji : j < i := Finset.mem_range.mp hj
      refine Submodule.span_mono (Set.image_subset e ?_) (ih j hji)
      exact Set.Iic_subset_Iic.mpr hji.le

theorem gsClassical_ne_zero {m n : ℕ} {e : ℕ → Vec m}
    (hli : LinearIndependent ℝ fun i : Fin n => e i) :
    ∀ i, i < n → gsClassical e i ≠ 0 := by
  intro i hi hzero
  have hdef := gsClassical_def e i
  rw [hzero] at hdef
  have hei : e i = ∑ j ∈ Finset.range i,
      (dot (e i) (gsClassical e j) / dot (gsClassical e j) (gsClassical e j))
        • gsClassical e j := sub_eq_zero.mp hdef.symm
  have hmem : e i ∈ Submodule.span ℝ (e '' Set.Iio i) := by
    rw [hei]
    apply Submodule.sum_mem
    intro j hj
    apply Submodule.smul_mem
    have hji : j < i := Finset.mem_range.mp hj
    refine Submodule.span_mono (Set.image_subset e ?_) (gsClassical_mem_span e j)
    intro x hx
    exact lt_of_le_of_lt (Set.mem_Iic.mp hx) hji
  have himg : (fun i : Fin n => e i) '' {j : Fin n | (j : ℕ) < i} = e '' Set.Iio i := by
    ext x
    constructor
    · rintro ⟨j, hj, rfl⟩
      exact ⟨(j : ℕ), hj, rfl⟩
    · rintro ⟨y, hy, rfl⟩
      exact ⟨⟨y, lt_trans hy hi⟩, hy, rfl⟩
  have hxs : (⟨i, hi⟩ : Fin n) ∉ {j : Fin n | (j : ℕ) < i} := by simp
  have hnot := hli.not_mem_span_image hxs
  rw [himg] at hnot
  exact hnot hmem

theorem getD_range_map {α : Type _} (L j : ℕ) (f : ℕ → α) (d : α) (h : j < L) :
    ((List.range L).map f).getD j d = f j := by
  rw [List.getD_eq_getElem?_getD, List.getElem?_map, List.getElem?_range h]
  rfl

theorem headD_range_map {α : Type _} (L : ℕ) (f : ℕ → α) (d : α) (h : 0 < L) :
    ((List.range L).map f).headD d = f 0 := by
  obtain ⟨K, rfl⟩ : ∃ K, L = K + 1 := ⟨L - 1, by omega⟩
  rw [List.range_succ_eq_map, List.map_cons, List.headD_cons]

theorem tail_range_map {α : Type _} (K : ℕ) (f : ℕ → α) :
    ((List.range (K + 1)).map f).tail = (List.range K).map fun j => f (j + 1) := by
  rw [List.range_succ_eq_map, List.map_cons, List.tail_cons, List.map_map]
  exact List.map_congr_left fun j _ => rfl

theorem getLastD_range_map {α : Type _} (L : ℕ) (f : ℕ → α) (d : α) (h : 0 < L) :
    ((List.range L).map f).getLastD d = f (L - 1) := by
  obtain ⟨K, rfl⟩ : ∃ K, L = K + 1 := ⟨L - 1, by omega⟩
  rw [List.range_succ, List.map_append, List.map_cons, List.map_nil,
    List.getLastD_concat, Nat.add_sub_cancel]

theorem gsStateAt_zero {m : ℕ} (e : ℕ → Vec m) (n : ℕ) :
    gsStateAt e n 0 = gsInit e n := rfl

theorem gsStateAt_succ {m : ℕ} (e : ℕ → Vec m) (n t : ℕ) :
    gsStateAt e n (t + 1) = gsStep e (1 + t) (gsStateAt e n t) := by
  rw [gsStateAt, gsStateAt, List.range'_concat, List.foldl_append, Nat.one_mul]
  rfl

/-- Loop invariant: after `t` iterations the finalized rows are the first
`t + 1` classical Gram-Schmidt vectors, the squared-norm list matches, and
(while rows remain to be processed) the remaining rows carry the residuals
against the first `t` finalized rows. -/
theorem gsStateAt_spec {m : ℕ} (e : ℕ → Vec m) (n : ℕ) :
    ∀ t, t + 1 ≤ n →
      (gsStateAt e n t).u = (List.range (t + 1)).map (gsClassical e) ∧
      (gsStateAt e n t).uu = (List.range (t + 1)).map
        (fun l => dot (gsClassical e l) (gsClassical e l)) ∧
      (t + 2 ≤ n → (gsStateAt e n t).ud = (List.range (n - 1 - t)).map
        (fun j => gsResidual e t (t + 1 + j))) := by
  intro t
  induction t with
  | zero =>
    intro _
    rw [gsStateAt_zero]
    refine ⟨?_, ?_, fun _ => ?_⟩
    · rw [show List.range 1 = [0] from rfl, List.map_cons, List.map_nil,
        gsClassical_zero]
      rfl
    · rw [show List.range 1 = [0] from rfl, List.map_cons, List.map_nil,
        gsClassical_zero]
      rfl
    · rw [show n - 1 - 0 = n - 1 from rfl]
      exact List.map_congr_left fun j _ => by rw [gsResidual_zero]
  | succ t ih =>
    intro hn
    obtain ⟨hu, huu, hud⟩ := ih (by omega)
    have hud' := hud hn
    have hlen : (gsStateAt e n t).ud.length = n - 1 - t := by
      rw [hud', List.length_map, List.length_range]
    have hprev : (gsStateAt e n t).u.getLastD 0 = gsClassical e t := by
      rw [hu, getLastD_range_map _ _ _ (by omega : 0 < t + 1), Nat.add_sub_cancel]
    have hpuu : (gsStateAt e n t).uu.getLastD 0
        = dot (gsClassical e t) (gsClassical e t) := by
      rw [huu, getLastD_range_map _ _ _ (by omega : 0 < t + 1), Nat.add_sub_cancel]
    have hcomm : (1 : ℕ) + t = t + 1 := Nat.add_comm 1 t
    -- the updated remaining rows
    have hud2 : (List.range (gsStateAt e n t).ud.length).map
        (fun j => fun kk => (gsStateAt e n t).ud.getD j 0 kk
          - (gsStateAt e n t).u.getLastD 0 kk
            * (dot (e (1 + t + j)) ((gsStateAt e n t).u.getLastD 0)
              / (gsStateAt e n t).uu.getLastD 0))
        = (List.range (n - 1 - t)).map fun j => gsResidual e (t + 1) (t + 1 + j) := by
      rw [hlen]
      refine List.map_congr_left fun j hj => ?_
      have hjlt : j < n - 1 - t := List.mem_range.mp hj
      rw [hprev, hpuu, hud', getD_range_map _ _ _ _ hjlt]
      rw [show 1 + t + j = t + 1 + j by omega]
      exact (gsResidual_succ e t (t + 1 + j)).symm
    have hlen2 : 0 < n - 1 - t := by omega
    have hui : ((List.range (n - 1 - t)).map
        (fun j => gsResidual e (t + 1) (t + 1 + j))).headD 0
        = gsClassical e (t + 1) := by
      rw [headD_range_map _ _ _ hlen2]
      exact (gsClassical_eq_residual e (t + 1)).symm
    rw [gsStateAt_succ]
    simp only [gsStep]
    rw [hud2, hui]
    refine ⟨?_, ?_, fun h3 => ?_⟩
    · rw [hu, List.range_succ (n := t + 1), List.map_append, List.map_cons,
        List.map_nil]
    · rw [huu, List.range_succ (n := t + 1), List.map_append, List.map_cons,
        List.map_nil]
    · have hcond : 1 < ((List.range (n - 1 - t)).map
          (fun j => gsResidual e (t + 1) (t + 1 + j))).length := by
        rw [List.length_map, List.length_range]; omega
      rw [if_pos hcond]
      obtain ⟨K, hK⟩ : ∃ K, n - 1 - t = K + 1 := ⟨n - 2 - t, by omega⟩
      rw [hK, tail_range_map]
      have hK2 : n - 1 - (t + 1) = K := by omega
      rw [hK2]
      refine List.map_congr_left fun j _ => ?_
      rw [show t + 1 + (j + 1) = t + 1 + 1 + j by omega]

theorem gsRun_u {m : ℕ} (e : ℕ → Vec m) (n : ℕ) (hn : 1 ≤ n) :
    (gsRun e n).u = (List.range n).map (gsClassical e) := by
  have h := (gsStateAt_spec e n (n - 1) (by omega)).1
  rw [gsRun, h, show n - 1 + 1 = n by omega]

theorem gsClassical_orthogonal {m n : ℕ} (e : ℕ → Vec m)
    (hnz : ∀ l, l < n → gsClassical e l ≠ 0) :
    ∀ b, b < n → ∀ a, a < b → dot (gsClassical e b) (gsClassical e a) = 0 := by
  intro b
  induction b using Nat.strong_induction_on with
  | _ b ih =>
    intro hb a hab
    rw [gsClassical_def, dot_sub_left, dot_sum_left]
    have hsum : ∑ j ∈ Finset.range b,
        dot ((dot (e b) (gsClassical e j) / dot (gsClassical e j) (gsClassical e j))
          • gsClassical e j) (gsClassical e a)
        = dot (e b) (gsClassical e a) := by
      rw [Finset.sum_eq_single a]
      · rw [dot_smul_left, div_mul_cancel₀]
        exact (dot_self_pos_of_ne_zero (hnz a (lt_trans hab hb))).ne'
      · intro j hj hja
        rw [dot_smul_left]
        have hjb : j < b := Finset.mem_range.mp hj
        have hz : dot (gsClassical e j) (gsClassical e a) = 0 := by
          rcases lt_or_gt_of_ne hja with h | h
          · rw [dot_comm]
            exact ih a hab (lt_trans hab hb) j h
          · exact ih j hjb (lt_trans hjb hb) a h
        rw [hz, mul_zero]
      · intro habs
        exact absurd (Finset.mem_range.mpr hab) habs
    rw [hsum, sub_self]

/-! ## Orthonormality of the orthogonalized rows (C3) -/

theorem orth_embedding_plain_eq {n : ℕ} (block : Fin n → Vec n) (i : Fin n) :
    orth_embedding_plain block i = gsNormalize (gsClassical (erowOf block) i) := by
  rw [orth_embedding_plain, gsRun_u _ _ i.pos, getD_range_map _ _ _ _ i.isLt]

theorem dot_gsNormalize {m : ℕ} (v w : Vec m) :
    dot (gsNormalize v) (gsNormalize w)
      = dot v w / (l2normLast v * l2normLast w) := by
  unfold gsNormalize dot
  rw [Finset.sum_div]
  exact Finset.sum_congr rfl fun k _ => div_mul_div_comm _ _ _ _

theorem gsNormalize_self_dot {m : ℕ} {v : Vec m} (h : v ≠ 0) :
    dot (gsNormalize v) (gsNormalize v) = 1 := by
  rw [dot_gsNormalize, ← sq, l2normLast_sq]
  exact div_self (dot_self_pos_of_ne_zero h).ne'

theorem gsNormalize_dot_zero {m : ℕ} {v w : Vec m} (h : dot v w = 0) :
    dot (gsNormalize v) (gsNormalize w) = 0 := by
  rw [dot_gsNormalize, h, zero_div]

theorem erowOf_fin_eq {n m : ℕ} (block : Fin n → Vec m) :
    (fun i2 : Fin n => erowOf block (i2 : ℕ)) = block := by
  funext i2
  show (if h : (i2 : ℕ) < n then block ⟨i2, h⟩ else 0) = block i2
  rw [dif_pos i2.isLt]

/-- Single-block orthonormality: with linearly independent rows, the rows
produced by the `use_scale = False` branch of `orth_embedding` have unit
norm and are mutually orthogonal. -/
theorem orth_embedding_plain_orthonormal {n : ℕ} (block : Fin n → Vec n)
    (hli : LinearIndependent ℝ block) (i j : Fin n) :
    dot (orth_embedding_plain block i) (orth_embedding_plain block j)
      = if i = j then 1 else 0 := by
  have hli2 : LinearIndependent ℝ (fun i2 : Fin n => erowOf block (i2 : ℕ)) := by
    rw [erowOf_fin_eq]; exact hli
  have hnz := gsClassical_ne_zero hli2
  rw [orth_embedding_plain_eq, orth_embedding_plain_eq]
  by_cases hij : i = j
  · subst hij
    rw [if_pos rfl]
    exact gsNormalize_self_dot (hnz i i.isLt)
  · rw [if_neg hij]
    apply gsNormalize_dot_zero
    rcases lt_or_gt_of_ne hij with h | h
    · rw [dot_comm]
      exact gsClassical_orthogonal (erowOf block) hnz j j.isLt i h
    · exact gsClassical_orthogonal (erowOf block) hnz i i.isLt j h

theorem orth_embedding_scaled_castSucc {n : ℕ} (block : Fin n → Vec (n + 1))
    (i : Fin n) (j : Fin n) :
    orth_embedding_scaled block i (Fin.castSucc j)
      = orth_embedding_plain (squarePart block) i j := by
  rw [orth_embedding_scaled]
  exact Fin.lastCases_castSucc j

/-- C3: for every batch of relation blocks whose rows are linearly
independent, the rows returned by `orth_embedding` are orthonormal: the
Gram matrix of the first `num_elem` columns is the identity, both in the
`use_scale = False` branch and (ignoring the untouched scale column) in the
`use_scale = True` branch. -/
theorem ote_orth_embedding_orthonormal {nb n nb2 : ℕ}
    (batch : Fin nb → Fin n → Vec n) (b : Fin nb)
    (batch2 : Fin nb2 → Fin n → Vec (n + 1)) (b2 : Fin nb2)
    (hli : LinearIndependent ℝ (batch b))
    (hli2 : LinearIndependent ℝ (squarePart (batch2 b2))) :
    (∀ i j : Fin n, dot (orth_embedding_plain_batched batch b i)
      (orth_embedding_plain_batched batch b j) = if i = j then 1 else 0) ∧
    (∀ i j : Fin n,
      dot (squarePart (orth_embedding_scaled_batched batch2 b2) i)
        (squarePart (orth_embedding_scaled_batched batch2 b2) j)
      = if i = j then 1 else 0) := by
  constructor
  · exact fun i j => orth_embedding_plain_orthonormal (batch b) hli i j
  · intro i j
    have hsq : squarePart (orth_embedding_scaled_batched batch2 b2)
        = orth_embedding_plain (squarePart (batch2 b2)) := by
      funext i2 j2
      exact orth_embedding_scaled_castSucc (batch2 b2) i2 j2
    rw [hsq]
    exact orth_embedding_plain_orthonormal (squarePart (batch2 b2)) hli2 i j

/-- Identity block batch used to instantiate the orthonormality claim. -/
def idBlock2 : Fin 1 → Fin 2 → Vec 2 := fun _ i j => if (i : ℕ) = (j : ℕ) then 1 else 0

/-- Identity block with a scale column, for the `use_scale = True` branch. -/
def idBlock2s : Fin 1 → Fin 2 → Vec 3 := fun _ i j => if (i : ℕ) = (j : ℕ) then 1 else 0

theorem idBlock2_li : LinearIndependent ℝ (idBlock2 0) := by
  apply Fintype.linearIndependent_iff.mpr
  intro g hg i
  have h := congrFun hg i
  rw [Finset.sum_apply] at h
  fin_cases i <;> simpa [idBlock2, Fin.sum_univ_two] using h

theorem idBlock2s_square_li : LinearIndependent ℝ (squarePart (idBlock2s 0)) := by
  apply Fintype.linearIndependent_iff.mpr
  intro g hg i
  have h := congrFun hg i
  rw [Finset.sum_apply] at h
  fin_cases i <;>
    simpa [idBlock2s, squarePart, Fin.sum_univ_two] using h

/-- C3 witness: the 2-by-2 identity blocks instantiate the claim. -/
theorem ote_orth_embedding_orthonormal_witness :
    LinearIndependent ℝ (idBlock2 0) ∧
    LinearIndependent ℝ (squarePart (idBlock2s 0)) ∧
    ((∀ i j : Fin 2, dot (orth_embedding_plain_batched idBlock2 0 i)
      (orth_embedding_plain_batched idBlock2 0 j) = if i = j then 1 else 0) ∧
    (∀ i j : Fin 2,
      dot (squarePart (orth_embedding_scaled_batched idBlock2s 0) i)
        (squarePart (orth_embedding_scaled_batched idBlock2s 0) j)
      = if i = j then 1 else 0)) :=
  ⟨idBlock2_li, idBlock2s_square_li,
    ote_orth_embedding_orthonormal idBlock2 0 idBlock2s 0
      idBlock2_li idBlock2s_square_li⟩

/-! ## C2: the projection denominator has no epsilon floor -/

/-- Block whose first row is zero: `[[0, 0], [1, 0]]`. -/
def zeroRowBlock : Fin 2 → Vec 2 :=
  fun i j => if (i : ℕ) = 1 ∧ (j : ℕ) = 0 then 1 else 0

/-- C2 exhibit: at iteration 1 on the block `[[0, 0], [1, 0]]` the
denominator the loop divides by is exactly `0` — the raw squared norm of
the zero first row.  The `eps` parameter of `orth_embedding` (default
`1e-18`) is never applied inside the loop body, so the division
`... / uu[0]` is a division by zero (NaN/Inf in float arithmetic), contrary
to the claimed epsilon floor. -/
theorem ote_orth_denominator_zero :
    gsDenom (erowOf zeroRowBlock) 2 1 = 0 := by
  rw [gsDenom, gsStateAt_zero]
  show dot (erowOf zeroRowBlock 0) (erowOf zeroRowBlock 0) = 0
  simp [dot, erowOf, zeroRowBlock, Fin.sum_univ_two]

/-! ## C8: the scale column is re-attached unmodified -/

/-- C8: for every batch of scaled blocks, `orth_embedding` leaves the
trailing scale column of every block unchanged. -/
theorem ote_orth_embedding_preserves_scale_column :
    ∀ (nb n : ℕ) (batch : Fin nb → Fin n → Vec (n + 1)) (b : Fin nb) (i : Fin n),
      orth_embedding_scaled_batched batch b i (Fin.last n)
        = batch b i (Fin.last n) := by
  intro nb n batch b i
  rw [orth_embedding_scaled_batched, orth_embedding_scaled]
  exact Fin.lastCases_last

/-! ## OTEScore scaled score path (lines 142-223)

The score computation is embedded in blocked form: the reshapes
`inputs.reshape([-1, 1, num_elem])` and `rel.reshape([-1, num_elem,
num_elem + 1])` group contiguous slices of the last axis, which currying
represents directly.  The python `raise ValueError` of `get_scale` and
`reverse_scale` is the spec's UnsupportedConfiguration failure. -/

/-- Error kinds of the score-function contract. -/
inductive ScoreErr where
  | unsupportedConfiguration : ScoreErr
  | shapeMismatch : ScoreErr
deriving DecidableEq, Repr

/-- Embedding of `OTEScore.get_scale` (lines 204-209): elementwise absolute
value for `scale_type = 1`, elementwise exponential for `scale_type = 2`,
`ValueError` otherwise. -/
def get_scale {α : Type} (scale_type : ℤ) (scale : α → ℝ) :
    Except ScoreErr (α → ℝ) :=
  if scale_type = 1 then .ok fun x => |scale x|
  else if scale_type = 2 then .ok fun x => Real.exp (scale x)
  else .error .unsupportedConfiguration

/-- Embedding of `OTEScore.reverse_scale` (lines 211-216). -/
def reverse_scale {α : Type} (scale_type : ℤ) (eps : ℝ) (scale : α → ℝ) :
    Except ScoreErr (α → ℝ) :=
  if scale_type = 1 then .ok fun x => 1 / (|scale x| + eps)
  else if scale_type = 2 then .ok fun x => -scale x
  else .error .unsupportedConfiguration

/-- The raw scale slice `rel[:, :, num_elem:]` over all blocks. -/
def ote_raw_scale {B M ne : ℕ} (rel : Fin B → Fin M → Fin ne → Vec (ne + 1)) :
    Fin B × Fin M × Fin ne → ℝ :=
  fun p => scaleCol (rel p.1 p.2.1) p.2.2

/-- The scale slice passed through `get_scale` and divided by its own
last-axis norm (`scale / scale.norm(axis=-1, p=2, keepdim=True)`); that
axis has length one, so the norm of entry `s` is `sqrt (s ^ 2)`. -/
def ote_normalized_scale {B M ne : ℕ} (scale_type : ℤ)
    (rel : Fin B → Fin M → Fin ne → Vec (ne + 1)) :
    Except ScoreErr (Fin B × Fin M × Fin ne → ℝ) := do
  let gs ← get_scale scale_type (ote_raw_scale rel)
  return fun p => gs p / Real.sqrt (gs p ^ 2)

/-- One block of `paddle.bmm(inputs, rel)`: row vector times matrix. -/
def ote_bmm {ne : ℕ} (inp : Vec ne) (mat : Fin ne → Vec ne) : Vec ne :=
  fun j => ∑ i, inp i * mat i j

/-- The `use_scale = True` branch of `OTEScore.score` (lines 158-163) up to
the `bmm`: `rel_scale = rel[:, :, :num_elem] * scale` (the normalized scale
broadcasts across the columns of each row), then the batched multiply. -/
def ote_scaled_outputs {B M ne : ℕ} (scale_type : ℤ)
    (inputs : Fin B → Fin M → Vec ne)
    (rel : Fin B → Fin M → Fin ne → Vec (ne + 1)) :
    Except ScoreErr (Fin B → Fin M → Vec ne) := do
  let nsc ← ote_normalized_scale scale_type rel
  return fun b mm => ote_bmm (inputs b mm)
    fun i j => squarePart (rel b mm) i j * nsc (b, mm, i)

/-- The `use_scale = False` branch of the `bmm` (lines 165-166). -/
def ote_plain_outputs {B M ne : ℕ} (inputs : Fin B → Fin M → Vec ne)
    (rel : Fin B → Fin M → Fin ne → Vec ne) : Fin B → Fin M → Vec ne :=
  fun b mm => ote_bmm (inputs b mm) (rel b mm)

/-- Embedding of `OTEScore.score` (lines 153-175) for `use_scale = True`:
bmm outputs minus the reference, per-block norm, sum of the per-block norms
of one embedding row. -/
def ote_score_scaled {B M ne : ℕ} (scale_type : ℤ)
    (inputs : Fin B → Fin M → Vec ne)
    (rel : Fin B → Fin M → Fin ne → Vec (ne + 1))
    (inputs_last : Fin B → Fin M → Vec ne) : Except ScoreErr (Fin B → ℝ) := do
  let outputs ← ote_scaled_outputs scale_type inputs rel
  return fun b => ∑ mm, l2normLast fun j => outputs b mm j - inputs_last b mm j

/-- Embedding of `OTEScore.score` for `use_scale = False`. -/
def ote_score_plain {B M ne : ℕ} (inputs : Fin B → Fin M → Vec ne)
    (rel : Fin B → Fin M → Fin ne → Vec ne)
    (inputs_last : Fin B → Fin M → Vec ne) : Fin B → ℝ :=
  fun b => ∑ mm, l2normLast
    fun j => ote_plain_outputs inputs rel b mm j - inputs_last b mm j

/-- Embedding of `OTEScore.orth_rel_embedding` (lines 255-263) for scaled
blocks: orthogonalize every block. -/
def orth_rel_scaled {B M ne : ℕ}
    (rel : Fin B → Fin M → Fin ne → Vec (ne + 1)) :
    Fin B → Fin M → Fin ne → Vec (ne + 1) :=
  fun b mm => orth_embedding_scaled (rel b mm)

/-- Embedding of `OTEScore.orth_reverse_mat` (lines 265-273) for scaled
blocks: transpose every square sub-block and replace the scale column via
`reverse_scale` (with its default `eps = 1e-9`). -/
def orth_reverse_scaled {B M ne : ℕ} (scale_type : ℤ)
    (rel : Fin B → Fin M → Fin ne → Vec (ne + 1)) :
    Except ScoreErr (Fin B → Fin M → Fin ne → Vec (ne + 1)) := do
  let rsc ← reverse_scale scale_type 1e-9 (ote_raw_scale rel)
  return fun b mm i => fun col => Fin.lastCases (rsc (b, mm, i))
    (fun j => squarePart (rel b mm) j i) col

/-- Embedding of `OTEScore.__call__` (lines 142-145) for `use_scale = True`. -/
def ote_call_scaled {B M ne : ℕ} (gamma : ℝ) (scale_type : ℤ)
    (head : Fin B → Fin M → Vec ne)
    (rel : Fin B → Fin M → Fin ne → Vec (ne + 1))
    (tail : Fin B → Fin M → Vec ne) : Except ScoreErr (Fin B → ℝ) := do
  let s ← ote_score_scaled scale_type head (orth_rel_scaled rel) tail
  return fun b => gamma - s b

/-- Embedding of `OTEScore.inverse` (lines 147-151) for `use_scale = True`. -/
def ote_inverse_scaled {B M ne : ℕ} (gamma : ℝ) (scale_type : ℤ)
    (head : Fin B → Fin M → Vec ne)
    (rel : Fin B → Fin M → Fin ne → Vec (ne + 1))
    (tail : Fin B → Fin M → Vec ne) : Except ScoreErr (Fin B → ℝ) := do
  let r2 ← orth_reverse_scaled scale_type (orth_rel_scaled rel)
  let s ← ote_score_scaled scale_type tail r2 head
  return fun b => gamma - s b

/-! ## C7: unsupported scale types fail with UnsupportedConfiguration -/

theorem get_scale_error {α : Type} {scale_type : ℤ} (h1 : scale_type ≠ 1)
    (h2 : scale_type ≠ 2) (scale : α → ℝ) :
    get_scale scale_type scale = .error .unsupportedConfiguration := by
  rw [get_scale, if_neg h1, if_neg h2]

theorem reverse_scale_error {α : Type} {scale_type : ℤ} (h1 : scale_type ≠ 1)
    (h2 : scale_type ≠ 2) (eps : ℝ) (scale : α → ℝ) :
    reverse_scale scale_type eps scale = .error .unsupportedConfiguration := by
  rw [reverse_scale, if_neg h1, if_neg h2]

theorem ote_normalized_scale_error {B M ne : ℕ} {scale_type : ℤ}
    (h1 : scale_type ≠ 1) (h2 : scale_type ≠ 2)
    (rel : Fin B → Fin M → Fin ne → Vec (ne + 1)) :
    ote_normalized_scale scale_type rel = .error .unsupportedConfiguration := by
  rw [ote_normalized_scale, get_scale_error h1 h2]
  rfl

theorem ote_scaled_outputs_error {B M ne : ℕ} {scale_type : ℤ}
    (h1 : scale_type ≠ 1) (h2 : scale_type ≠ 2)
    (inputs : Fin B → Fin M → Vec ne)
    (rel : Fin B → Fin M → Fin ne → Vec (ne + 1)) :
    ote_scaled_outputs scale_type inputs rel
      = .error .unsupportedConfiguration := by
  rw [ote_scaled_outputs, ote_normalized_scale_error h1 h2]
  rfl

theorem orth_reverse_scaled_error {B M ne : ℕ} {scale_type : ℤ}
    (h1 : scale_type ≠ 1) (h2 : scale_type ≠ 2)
    (rel : Fin B → Fin M → Fin ne → Vec (ne + 1)) :
    orth_reverse_scaled scale_type rel = .error .unsupportedConfiguration := by
  rw [orth_reverse_scaled, reverse_scale_error h1 h2]
  rfl

theorem ote_score_scaled_error {B M ne : ℕ} {scale_type : ℤ}
    (h1 : scale_type ≠ 1) (h2 : scale_type ≠ 2)
    (inputs : Fin B → Fin M → Vec ne)
    (rel : Fin B → Fin M → Fin ne → Vec (ne + 1))
    (inputs_last : Fin B → Fin M → Vec ne) :
    ote_score_scaled scale_type inputs rel inputs_last
      = .error .unsupportedConfiguration := by
  rw [ote_score_scaled, ote_scaled_outputs_error h1 h2]
  rfl

/-- C7: with scaling enabled and a scale type outside the supported set
(1 or 2; e.g. scale type 3), both the forward and the inverse OTE score
fail synchronously with the unsupported-configuration error, for every
input triple. -/
theorem ote_unsupported_scale_type_errors :
    ∀ (B M ne : ℕ) (gamma : ℝ) (scale_type : ℤ),
      scale_type ≠ 1 → scale_type ≠ 2 →
      ∀ (head : Fin B → Fin M → Vec ne)
        (rel : Fin B → Fin M → Fin ne → Vec (ne + 1))
        (tail : Fin B → Fin M → Vec ne),
      ote_call_scaled gamma scale_type head rel tail
          = .error .unsupportedConfiguration ∧
      ote_inverse_scaled gamma scale_type head rel tail
          = .error .unsupportedConfiguration := by
  intro B M ne gamma scale_type h1 h2 head rel tail
  constructor
  · rw [ote_call_scaled, ote_score_scaled_error h1 h2]
    rfl
  · rw [ote_inverse_scaled, orth_reverse_scaled_error h1 h2]
    rfl

/-- Zero head used in the scale-type-3 witness. -/
def c7head : Fin 1 → Fin 1 → Vec 1 := fun _ _ _ => 0

/-- Zero relation block used in the scale-type-3 witness. -/
def c7rel : Fin 1 → Fin 1 → Fin 1 → Vec 2 := fun _ _ _ _ => 0

/-- Zero tail used in the scale-type-3 witness. -/
def c7tail : Fin 1 → Fin 1 → Vec 1 := fun _ _ _ => 0

/-- C7 witness: scale type 3 errors on a concrete triple. -/
theorem ote_unsupported_scale_type_errors_witness :
    (3 : ℤ) ≠ 1 ∧ (3 : ℤ) ≠ 2 ∧
    (ote_call_scaled 12 3 c7head c7rel c7tail
        = .error .unsupportedConfiguration ∧
     ote_inverse_scaled 12 3 c7head c7rel c7tail
        = .error .unsupportedConfiguration) :=
  ⟨by decide, by decide,
    ote_unsupported_scale_type_errors 1 1 1 12 3 (by decide) (by decide)
      c7head c7rel c7tail⟩

/-! ## C9: the normalized scale is identically one -/

/-- C9: for scale type 1 with nonzero raw scale entries, and for scale
type 2 unconditionally, the scale slice divided by its own singleton-axis
norm is exactly 1 at every position, so the scaled `bmm` — and with it the
whole scaled score — coincides with the unscaled computation on the square
part of the relation blocks. -/
theorem ote_scale_normalization_is_identity :
    ∀ (B M ne : ℕ) (scale_type : ℤ)
      (inputs : Fin B → Fin M → Vec ne)
      (rel : Fin B → Fin M → Fin ne → Vec (ne + 1))
      (inputs_last : Fin B → Fin M → Vec ne),
      (scale_type = 1 ∧ ∀ p, ote_raw_scale rel p ≠ 0) ∨ scale_type = 2 →
      ote_normalized_scale scale_type rel = .ok (fun _ => 1) ∧
      ote_scaled_outputs scale_type inputs rel
        = .ok (ote_plain_outputs inputs fun b mm => squarePart (rel b mm)) ∧
      ote_score_scaled scale_type inputs rel inputs_last
        = .ok (ote_score_plain inputs (fun b mm => squarePart (rel b mm))
            inputs_last) := by
  intro B M ne scale_type inputs rel inputs_last hcase
  have hns : ote_normalized_scale scale_type rel = .ok fun _ => 1 := by
    rcases hcase with ⟨h1, hnz⟩ | h2
    · subst h1
      rw [ote_normalized_scale, get_scale, if_pos rfl]
      exact congrArg Except.ok (funext fun p => by
        rw [Real.sqrt_sq_eq_abs, abs_abs,
          div_self (abs_ne_zero.mpr (hnz p))])
    · subst h2
      rw [ote_normalized_scale, get_scale, if_neg (by decide), if_pos rfl]
      exact congrArg Except.ok (funext fun p => by
        rw [Real.sqrt_sq_eq_abs, abs_of_pos (Real.exp_pos _),
          div_self (Real.exp_ne_zero _)])
  have houtputs : ote_scaled_outputs scale_type inputs rel
      = .ok (ote_plain_outputs inputs fun b mm => squarePart (rel b mm)) := by
    rw [ote_scaled_outputs, hns]
    exact congrArg Except.ok (funext fun b => funext fun mm => funext fun j => by
      simp only [ote_plain_outputs, ote_bmm, mul_one])
  refine ⟨hns, houtputs, ?_⟩
  rw [ote_score_scaled, houtputs]
  rfl

/-- Relation block of the C9 witness: every entry 1 (scale column 1). -/
def c9rel : Fin 1 → Fin 1 → Fin 1 → Vec 2 := fun _ _ _ _ => 1

/-- Entity block of the C9 witness. -/
def c9inp : Fin 1 → Fin 1 → Vec 1 := fun _ _ _ => 2

/-- Reference block of the C9 witness. -/
def c9last : Fin 1 → Fin 1 → Vec 1 := fun _ _ _ => 0

/-- C9 witness: scale type 1 with nonzero raw scale instantiates the claim. -/
theorem ote_scale_normalization_is_identity_witness :
    ((1 : ℤ) = 1 ∧ ∀ p, ote_raw_scale c9rel p ≠ 0) ∧
    (ote_normalized_scale 1 c9rel = .ok (fun _ => 1) ∧
     ote_scaled_outputs 1 c9inp c9rel
        = .ok (ote_plain_outputs c9inp fun b mm => squarePart (c9rel b mm)) ∧
     ote_score_scaled 1 c9inp c9rel c9last
        = .ok (ote_score_plain c9inp (fun b mm => squarePart (c9rel b mm))
            c9last)) := by
  have h : (1 : ℤ) = 1 ∧ ∀ p, ote_raw_scale c9rel p ≠ 0 :=
    ⟨rfl, fun p => by norm_num [ote_raw_scale, scaleCol, c9rel]⟩
  exact ⟨h, ote_scale_normalization_is_identity 1 1 1 1 c9inp c9rel c9last
    (Or.inl h)⟩

end

/-! ## Shape-level embedding

Tensor shapes are `List ℕ`; each paddle operation used by the kernels is
given its shape semantics (numpy-style right-aligned broadcasting,
`transpose` with a fixed rank-3 permutation, batched/broadcast `matmul`,
strict 3-D `bmm`, `reshape` with `-1` inference, last-axis reductions).
Failure (`none`) models the synchronous shape errors paddle raises.  The
per-variant shape functions compose these operations exactly as the score
functions do. -/

/-- Broadcast of one axis pair (numpy rule). -/
def bcastDim (a b : ℕ) : Option ℕ :=
  if a = b then some a
  else if a = 1 then some b
  else if b = 1 then some a
  else none

/-- Axis-wise broadcast of two equal-rank shapes. -/
def zipBcast : List ℕ → List ℕ → Option (List ℕ)
  | [], [] => some []
  | a :: s, b :: t =>
    match bcastDim a b, zipBcast s t with
    | some c, some u => some (c :: u)
    | _, _ => none
  | _, _ => none

/-- Full numpy/paddle broadcast: right-align, pad the shorter shape with
leading 1 axes, broadcast axis-wise. -/
def bcastShape (s t : List ℕ) : Option (List ℕ) :=
  zipBcast (List.replicate (max s.length t.length - s.length) 1 ++ s)
    (List.replicate (max s.length t.length - t.length) 1 ++ t)

/-- Shape of `paddle.norm(x, p=2, axis=-1)` (keepdim False). -/
def normLastShape (s : List ℕ) : Option (List ℕ) :=
  if s = [] then none else some s.dropLast

/-- Shape of `x.sum(axis=-1)`. -/
def sumLastShape (s : List ℕ) : Option (List ℕ) :=
  if s = [] then none else some s.dropLast

/-- Shape of `x.unsqueeze(-2)`. -/
def unsqueezeNeg2 (s : List ℕ) : List ℕ :=
  s.dropLast ++ 1 :: (match s.getLast? with | some a => [a] | none => [])

/-- Shape of `x.unsqueeze(-1)`. -/
def unsqueezeNeg1 (s : List ℕ) : List ℕ := s ++ [1]

/-- Shape of `x.transpose([0, 2, 1])`: defined only for rank 3 (paddle
requires the permutation length to equal the rank). -/
def transpose021 (s : List ℕ) : Option (List ℕ) :=
  match s with
  | [a, b, c] => some [a, c, b]
  | _ => none

/-- Shape of `paddle.matmul(x, y)` for operands of rank at least 2:
matching inner dimensions, broadcast batch dimensions. -/
def matmulShape (s t : List ℕ) : Option (List ℕ) :=
  match s.reverse, t.reverse with
  | k1 :: n1 :: sb, m2 :: k2 :: tb =>
    if k1 = k2 then
      match bcastShape sb.reverse tb.reverse with
      | some batch => some (batch ++ [n1, m2])
      | none => none
    else none
  | _, _ => none

/-- Shape of `x.reshape(t)` for an all-positive target (e.g. a previously
recorded shape): element count must match. -/
def reshapeShapeN (s t : List ℕ) : Option (List ℕ) :=
  if t.prod = s.prod then some t else none

/-- Shape of `x.reshape(t)` with at most one `-1` to be inferred. -/
def reshapeShape (s : List ℕ) (t : List ℤ) : Option (List ℕ) :=
  let numel := s.prod
  if t.count (-1) = 0 then
    if (t.map Int.toNat).prod = numel ∧ t.all (fun x => 0 < x) then
      some (t.map Int.toNat)
    else none
  else if t.count (-1) = 1 ∧ t.all (fun x => x = -1 ∨ 0 < x) then
    let known := ((t.filter fun x => x ≠ -1).map Int.toNat).prod
    if 0 < known ∧ known ∣ numel then
      some (t.map fun x => if x = -1 then numel / known else x.toNat)
    else none
  else none

/-- Shape of `paddle.bmm(x, y)`: strictly rank 3 with equal batch sizes. -/
def bmmShape (s t : List ℕ) : Option (List ℕ) :=
  match s, t with
  | [b1, n1, k1], [b2, k2, m2] =>
    if b1 = b2 ∧ k1 = k2 then some [b1, n1, m2] else none
  | _, _ => none

/-- Shape pipeline of `TransEScore.cdist` (lines 62-70). -/
def cdistShape (a b : List ℕ) : Option (List ℕ) := do
  let a_s ← normLastShape a
  let b_s ← normLastShape b
  let bt ← transpose021 b
  let mm ← matmulShape a bt
  let s1 ← bcastShape mm (unsqueezeNeg2 b_s)
  bcastShape s1 (unsqueezeNeg1 a_s)

/-- Shape pipeline of `TransEScore.__call__`. -/
def transEScoreShape (h r t : List ℕ) : Option (List ℕ) := do
  let hr ← bcastShape h r
  cdistShape hr t

/-- Shape pipeline of `TransEScore.inverse`. -/
def transEInverseShape (h r t : List ℕ) : Option (List ℕ) := do
  let tr ← bcastShape t r
  cdistShape tr h

/-- Shape of `paddle.chunk(x, 2, axis=-1)` (either half). -/
def chunk2Last (s : List ℕ) : Option (List ℕ) :=
  match s.getLast? with
  | some d => if d % 2 = 0 then some (s.dropLast ++ [d / 2]) else none
  | none => none

/-- Shape pipeline of `RotatEScore.__call__` (lines 98-112). -/
def rotatEScoreShape (h r t : List ℕ) : Option (List ℕ) := do
  let reh ← chunk2Last h
  let ret ← chunk2Last t
  let m1 ← bcastShape r reh
  let m2 ← bcastShape r ret
  let resc ← bcastShape m1 m2
  let m3 ← bcastShape r reh
  let m4 ← bcastShape r reh
  let imsc ← bcastShape m3 m4
  let resc2 ← bcastShape resc ret
  let imsc2 ← bcastShape imsc ret
  let sq ← bcastShape resc2 imsc2
  sumLastShape sq

/-- Shape pipeline of `RotatEScore.inverse` (lines 114-128). -/
def rotatEInverseShape (h r t : List ℕ) : Option (List ℕ) := do
  let reh ← chunk2Last h
  let ret ← chunk2Last t
  let m1 ← bcastShape r ret
  let m2 ← bcastShape r ret
  let resc ← bcastShape m1 m2
  let m3 ← bcastShape r ret
  let m4 ← bcastShape r ret
  let imsc ← bcastShape m3 m4
  let resc2 ← bcastShape resc reh
  let imsc2 ← bcastShape imsc reh
  let sq ← bcastShape resc2 imsc2
  sumLastShape sq

/-- Shape pipeline of the `use_scale` branch shared by `OTEScore.score` and
`OTEScore.neg_score` (lines 157-166 and 182-191): reshape the relation into
blocks, apply the (shape-preserving) scale to the square part when scaling
is enabled, and batch-multiply with the blocked inputs. -/
def oteBmmShape (ne : ℕ) (useScale : Bool) (inputsB rel : List ℕ) :
    Option (List ℕ) :=
  if useScale then do
    let relB ← reshapeShape rel [-1, (ne : ℤ), (ne : ℤ) + 1]
    let relScale ← bcastShape (relB.dropLast ++ [ne]) (relB.dropLast ++ [1])
    bmmShape inputsB relScale
  else do
    let relB ← reshapeShape rel [-1, (ne : ℤ), (ne : ℤ)]
    bmmShape inputsB relB

/-- Shape pipeline of `OTEScore.score` (lines 153-175), including the
entry assertion `inputs_size[:-1] == inputs_rel.shape[:-1]`. -/
def oteScoreShape (ne : ℕ) (useScale : Bool) (inputs rel last0 : List ℕ) :
    Option (List ℕ) :=
  if inputs.dropLast = rel.dropLast then do
    let inputsB ← reshapeShape inputs [-1, 1, (ne : ℤ)]
    let outputs ← oteBmmShape ne useScale inputsB rel
    let outputs2 ← reshapeShapeN outputs inputs
    let outputs3 ← bcastShape outputs2 last0
    let numDim ← outputs3.getLast?
    let flat ← reshapeShape outputs3 [-1, (ne : ℤ)]
    let normed ← normLastShape flat
    let resh ← reshapeShape normed [-1, ((numDim / ne : ℕ) : ℤ)]
    let summed ← sumLastShape resh
    reshapeShapeN summed outputs3.dropLast
  else none

/-- Shape pipeline of `OTEScore.neg_score` (lines 177-202), including the
entry assertion. -/
def oteNegScoreShape (ne : ℕ) (useScale : Bool) (inputs rel last0 : List ℕ)
    (negSampleSize chunkSize : ℕ) : Option (List ℕ) :=
  if inputs.dropLast = rel.dropLast then do
    let lastDim ← inputs.getLast?
    let inputsB ← reshapeShape inputs [-1, 1, (ne : ℤ)]
    let outputs ← oteBmmShape ne useScale inputsB rel
    let outputs2 ← reshapeShape outputs
      [-1, (chunkSize : ℤ), 1, (lastDim : ℤ)]
    let lastR ← reshapeShape last0
      [-1, 1, (negSampleSize : ℤ), (lastDim : ℤ)]
    let outputs3 ← bcastShape outputs2 lastR
    let numDim ← outputs3.getLast?
    let flat ← reshapeShape outputs3 [-1, (ne : ℤ)]
    let normed ← normLastShape flat
    let resh ← reshapeShape normed [-1, ((numDim / ne : ℕ) : ℤ)]
    let summed ← sumLastShape resh
    reshapeShapeN summed outputs3.dropLast
  else none

/-! ## Shape computation lemmas -/

theorem someBind {α β : Type} (x : α) (f : α → Option β) :
    (some x >>= f) = f x := rfl

theorem bcastDim_self (a : ℕ) : bcastDim a a = some a := by
  rw [bcastDim, if_pos rfl]

theorem bcastDim_one_right (a : ℕ) : bcastDim a 1 = some a := by
  by_cases h : a = 1
  · subst h; rw [bcastDim, if_pos rfl]
  · rw [bcastDim, if_neg h, if_neg h, if_pos rfl]

theorem bcastDim_one_left (a : ℕ) : bcastDim 1 a = some a := by
  by_cases h : a = 1
  · subst h; rw [bcastDim, if_pos rfl]
  · rw [bcastDim, if_neg fun hh => h hh.symm, if_pos rfl]

theorem zipBcast_self (s : List ℕ) : zipBcast s s = some s := by
  induction s with
  | nil => rfl
  | cons a t ih => rw [zipBcast, bcastDim_self, ih]

theorem bcastShape_self (s : List ℕ) : bcastShape s s = some s := by
  rw [bcastShape, Nat.max_self, Nat.sub_self, List.replicate_zero,
    List.nil_append, zipBcast_self]

theorem bcastShape_of_eq_length {s t : List ℕ} (h : s.length = t.length) :
    bcastShape s t = zipBcast s t := by
  rw [bcastShape, h, Nat.max_self, Nat.sub_self, List.replicate_zero,
    List.nil_append, List.nil_append]

theorem bcast3_mid (B c k : ℕ) : bcastShape [B, 1, k] [B, c, k] = some [B, c, k] := by
  rw [bcastShape_of_eq_length (by simp)]
  simp only [zipBcast, bcastDim_self, bcastDim_one_left]

theorem bcast3_mid_right (B c k : ℕ) :
    bcastShape [B, c, k] [B, 1, k] = some [B, c, k] := by
  rw [bcastShape_of_eq_length (by simp)]
  simp only [zipBcast, bcastDim_self, bcastDim_one_right]

theorem bcast3_last_right (B c k : ℕ) :
    bcastShape [B, c, k] [B, c, 1] = some [B, c, k] := by
  rw [bcastShape_of_eq_length (by simp)]
  simp only [zipBcast, bcastDim_self, bcastDim_one_right]

theorem chunk2Last_pair (B k : ℕ) : chunk2Last [B, 2 * k] = some [B, k] := by
  rw [chunk2Last]
  show (if 2 * k % 2 = 0 then some ([B, 2 * k].dropLast ++ [2 * k / 2])
    else none) = _
  rw [if_pos (Nat.mul_mod_right 2 k), Nat.mul_div_cancel_left k (by norm_num)]
  rfl

theorem chunk2Last_triple (a b k : ℕ) : chunk2Last [a, b, 2 * k] = some [a, b, k] := by
  rw [chunk2Last]
  show (if 2 * k % 2 = 0 then some ([a, b, 2 * k].dropLast ++ [2 * k / 2])
    else none) = _
  rw [if_pos (Nat.mul_mod_right 2 k), Nat.mul_div_cancel_left k (by norm_num)]
  rfl

theorem sumLast_pair (a b : ℕ) : sumLastShape [a, b] = some [a] := by
  rw [sumLastShape, if_neg (by simp)]
  rfl

theorem sumLast_triple (a b c : ℕ) : sumLastShape [a, b, c] = some [a, b] := by
  rw [sumLastShape, if_neg (by simp)]
  rfl

theorem normLast_pair (a b : ℕ) : normLastShape [a, b] = some [a] := by
  rw [normLastShape, if_neg (by simp)]
  rfl

theorem normLast_triple (a b c : ℕ) : normLastShape [a, b, c] = some [a, b] := by
  rw [normLastShape, if_neg (by simp)]
  rfl

theorem transpose021_triple (a b c : ℕ) : transpose021 [a, b, c] = some [a, c, b] := rfl

theorem matmulShape_33 (B na d nb : ℕ) :
    matmulShape [B, na, d] [B, d, nb] = some [B, na, nb] := by
  simp only [matmulShape, List.reverse_cons, List.reverse_nil, List.nil_append,
    List.cons_append, bcastShape_self]
  rw [if_true]

theorem reshape_m112 (s : List ℕ) (h : 2 ∣ s.prod) :
    reshapeShape s [-1, 1, 2] = some [s.prod / 2, 1, 2] := by
  rw [reshapeShape]
  rw [if_neg (by decide), if_pos (by decide), if_pos ⟨by norm_num, h⟩]
  rfl

theorem reshape_m2 (s : List ℕ) (h : 2 ∣ s.prod) :
    reshapeShape s [-1, 2] = some [s.prod / 2, 2] := by
  rw [reshapeShape]
  rw [if_neg (by decide), if_pos (by decide), if_pos ⟨by norm_num, h⟩]
  rfl

theorem reshape_m23 (s : List ℕ) (h : 6 ∣ s.prod) :
    reshapeShape s [-1, 2, 3] = some [s.prod / 6, 2, 3] := by
  rw [reshapeShape]
  rw [if_neg (by decide), if_pos (by decide), if_pos ⟨by norm_num, h⟩]
  rfl

theorem bcast_dropLast_scale (x y z w : ℕ) :
    bcastShape (List.dropLast [x, y, z] ++ [w]) (List.dropLast [x, y, z] ++ [1])
      = some [x, y, w] := by
  rw [show List.dropLast [x, y, z] ++ [w] = [x, y, w] from rfl,
    show List.dropLast [x, y, z] ++ [1] = [x, y, 1] from rfl,
    bcast3_last_right]

/-! ## Claim theorems for the shape contract (C6, C10) -/

/-- C6 counterexample: for the rank-2, no-broadcast shape `[batch, dim]`
(batch 2, dim 4) the TransE forward score does not return the claimed
`[batch]` shape: `cdist` applies `transpose([0, 2, 1])`, which requires
rank 3, so the call fails instead. -/
theorem transE_shape_contract_counterexample :
    transEScoreShape [2, 4] [2, 4] [2, 4] ≠ some [2] := by decide

/-- C6 amended: the RotatE score and inverse return exactly the broadcast
of the batch/candidate dimensions (rank-2 `[B]`, and `[B, c]` with a
tail-side candidate axis), and the blocked OTE score returns `[B]`; the
TransE score and inverse, however, require rank-3 inputs and return the
pairwise shape `[B, na, nb]`, which retains size-1 axes instead of
collapsing to the broadcast shape, and they reject the rank-2
`[batch, dim]` shape outright. -/
theorem score_shape_contract_amended :
    (∀ B k : ℕ, rotatEScoreShape [B, 2 * k] [B, k] [B, 2 * k] = some [B] ∧
      rotatEInverseShape [B, 2 * k] [B, k] [B, 2 * k] = some [B]) ∧
    (∀ B c k : ℕ,
      rotatEScoreShape [B, 1, 2 * k] [B, 1, k] [B, c, 2 * k] = some [B, c]) ∧
    (∀ B : ℕ, oteScoreShape 2 true [B, 4] [B, 12] [B, 4] = some [B]) ∧
    (∀ B na nb d : ℕ,
      transEScoreShape [B, na, d] [B, na, d] [B, nb, d] = some [B, na, nb] ∧
      transEInverseShape [B, nb, d] [B, na, d] [B, na, d] = some [B, na, nb]) ∧
    (∀ B d : ℕ, transEScoreShape [B, d] [B, d] [B, d] = none) := by
  refine ⟨fun B k => ⟨?_, ?_⟩, fun B c k => ?_, fun B => ?_,
    fun B na nb d => ⟨?_, ?_⟩, fun B d => ?_⟩
  · rw [rotatEScoreShape, chunk2Last_pair]
    simp only [someBind, bcastShape_self, sumLast_pair]
  · rw [rotatEInverseShape, chunk2Last_pair]
    simp only [someBind, bcastShape_self, sumLast_pair]
  · rw [rotatEScoreShape, chunk2Last_triple, chunk2Last_triple]
    simp only [someBind, bcastShape_self, bcast3_mid, sumLast_triple]
  · have hcond : ([B, 4] : List ℕ).dropLast = [B, 12].dropLast := rfl
    have htrue : true = true := rfl
    have hc2 : ((2 : ℕ) : ℤ) = (2 : ℤ) := rfl
    have hc3 : ((2 : ℤ) + 1) = (3 : ℤ) := rfl
    have hc42 : ((4 / 2 : ℕ) : ℤ) = (2 : ℤ) := rfl
    rw [oteScoreShape, if_pos hcond, hc2]
    rw [reshape_m112 [B, 4] ⟨B * 2, by simp [List.prod_cons]; ring⟩, someBind]
    rw [oteBmmShape, if_pos htrue, hc2, hc3]
    rw [reshape_m23 [B, 12] ⟨B * 2, by simp [List.prod_cons]; ring⟩, someBind]
    rw [bcast_dropLast_scale, someBind]
    rw [bmmShape, if_pos ⟨by simp [List.prod_cons]; omega, rfl⟩, someBind]
    rw [reshapeShapeN, if_pos (by simp [List.prod_cons]; omega), someBind]
    rw [bcastShape_self, someBind]
    rw [show List.getLast? [B, (4 : ℕ)] = some 4 from rfl, someBind, hc42]
    rw [reshape_m2 [B, 4] ⟨B * 2, by simp [List.prod_cons]; ring⟩, someBind]
    rw [normLast_pair, someBind]
    rw [reshape_m2 _ (by simp [List.prod_cons]; omega), someBind]
    rw [sumLast_pair, someBind]
    rw [show List.dropLast [B, (4 : ℕ)] = [B] from rfl]
    rw [reshapeShapeN, if_pos (by simp [List.prod_cons]; omega)]
  · rw [transEScoreShape, bcastShape_self, someBind, cdistShape,
      normLast_triple, someBind, normLast_triple, someBind,
      transpose021_triple, someBind, matmulShape_33, someBind,
      show unsqueezeNeg2 [B, nb] = [B, 1, nb] from rfl,
      bcast3_mid_right, someBind,
      show unsqueezeNeg1 [B, na] = [B, na, 1] from rfl,
      bcast3_last_right]
  · rw [transEInverseShape, bcastShape_self, someBind, cdistShape,
      normLast_triple, someBind, normLast_triple, someBind,
      transpose021_triple, someBind, matmulShape_33, someBind,
      show unsqueezeNeg2 [B, nb] = [B, 1, nb] from rfl,
      bcast3_mid_right, someBind,
      show unsqueezeNeg1 [B, na] = [B, na, 1] from rfl,
      bcast3_last_right]
  · rw [transEScoreShape, bcastShape_self, someBind]
    rfl

/-- C10: both `OTEScore.score` and `OTEScore.neg_score` assert at entry
that the leading (all-but-last) dimensions of the entity input tensor and
the relation tensor are exactly equal, so any call in which the relation
carries an axis the entity input lacks fails instead of broadcasting. -/
theorem ote_score_asserts_equal_leading_dims :
    ∀ (ne : ℕ) (us : Bool) (inputs rel last0 : List ℕ) (nss cs : ℕ),
      inputs.dropLast ≠ rel.dropLast →
      oteScoreShape ne us inputs rel last0 = none ∧
      oteNegScoreShape ne us inputs rel last0 nss cs = none := by
  intro ne us inputs rel last0 nss cs h
  exact ⟨by rw [oteScoreShape, if_neg h], by rw [oteNegScoreShape, if_neg h]⟩

/-- C10 witness: an entity input `[2, 4]` with a relation `[2, 3, 20]`
carrying a broadcast/candidate dimension fails the assertion in both
score paths. -/
theorem ote_score_asserts_equal_leading_dims_witness :
    ([2, 4] : List ℕ).dropLast ≠ [2, 3, 20].dropLast ∧
    (oteScoreShape 4 true [2, 4] [2, 3, 20] [2, 4] = none ∧
     oteNegScoreShape 4 true [2, 4] [2, 3, 20] [2, 4] 3 2 = none) :=
  ⟨by decide, ote_score_asserts_equal_leading_dims 4 true [2, 4] [2, 3, 20]
    [2, 4] 3 2 (by decide)⟩
